/-
Verification of the BioEncoder loss module (`bioencoder/core/losses.py`).

The development shallowly embeds the two loss classes of the module:

* `SupConLoss.__init__` (tree-correlation construction): a parsed rooted
  phylogenetic tree is modelled by the rose tree `PTree`, whose edges carry
  real branch lengths (the Python code works with floats; the embedding works
  in exact real arithmetic, the standard idealisation).  The dendropy
  calls used by the source (`leaf_node_iter` + `distance_from_root`,
  `tree.mrca`, `anc is root`) are embedded as `leafList`, `mrcaInfo`.
  The constructor body itself (the dict comprehension, the sorted tip list,
  and the `combinations_with_replacement` loop filling `bm_corr`) is embedded
  by `tipsOf`, `tipDepth`, `corrLoop` and `buildBmCorr`.
* `SupConLoss.forward`: argument validation and mask derivation are embedded
  by `forwardMask`; the contrastive computation (lines 114-158 of the source)
  by `supConLossVal`; the composition by `supConForward`.
* `LabelSmoothingLoss.forward` is embedded by `labelSmoothingForward`.

Real-number values produced by the numeric pipeline are modelled in `ℝ`
(division by zero is the Lean convention `x / 0 = 0`; where that convention
matters for a claim it is discussed at the corresponding theorem).
-/
import Mathlib

/-- A rooted phylogenetic tree: every non-root node carries the length of the
branch leading to its parent (`brlen`); the value stored at the root is
ignored, matching the convention that a root has no parent edge.  Leaves carry
taxon labels. -/
inductive PTree where
  | leaf (label : String) (brlen : ℝ)
  | node (brlen : ℝ) (children : List PTree)

/-- Branch length from a node to its parent. -/
noncomputable def PTree.brlen : PTree → ℝ
  | .leaf _ l => l
  | .node l _ => l

mutual

/-- All leaf taxon labels of a subtree paired with their distance from the
root, where `acc` is the distance from the root to this subtree's top node
(dendropy's `leaf_node_iter` together with `distance_from_root`). -/
noncomputable def leafListFrom (acc : ℝ) : PTree → List (String × ℝ)
  | .leaf lab _ => [(lab, acc)]
  | .node _ cs => leafListChildren acc cs

/-- Leaf labels/depths of a list of sibling subtrees hanging below a node at
distance `acc` from the root. -/
noncomputable def leafListChildren (acc : ℝ) : List PTree → List (String × ℝ)
  | [] => []
  | c :: rest => leafListFrom (acc + c.brlen) c ++ leafListChildren acc rest

end

/-- Leaf labels with root distances, for the whole tree (root at depth 0). -/
noncomputable def leafList (t : PTree) : List (String × ℝ) := leafListFrom 0 t

/-- The taxon labels of all leaves, in iteration order. -/
noncomputable def leafLabels (t : PTree) : List String := (leafList t).map Prod.fst

mutual

/-- Whether some leaf of the subtree carries label `l`. -/
def containsLab (t : PTree) (l : String) : Bool :=
  match t with
  | .leaf lab _ => lab = l
  | .node _ cs => containsLabChildren cs l

/-- Whether some leaf below one of the sibling subtrees carries label `l`. -/
def containsLabChildren (cs : List PTree) (l : String) : Bool :=
  match cs with
  | [] => false
  | c :: rest => containsLab c l || containsLabChildren rest l

end

mutual

/-- All branch lengths of the subtree are nonnegative (the root's unused
stored length included, harmlessly): the spec's "non-negative branch
lengths" validity condition on the input tree file. -/
def nonnegLens : PTree → Prop
  | .leaf _ l => 0 ≤ l
  | .node l cs => 0 ≤ l ∧ nonnegLensChildren cs

def nonnegLensChildren : List PTree → Prop
  | [] => True
  | c :: rest => nonnegLens c ∧ nonnegLensChildren rest

end

mutual

/-- Embeds `tree.mrca(taxon_labels=[a, b])` together with the two facts the
source reads off the returned node: whether it `is` the tree's root, and its
`distance_from_root()`.  The MRCA is the deepest node whose subtree contains
both labels: descend into a child as long as one child still contains both.
`acc` is the distance from the root to the current subtree's top node and
`top` records whether that node is the root itself.  Returns `none` when the
two labels have no common ancestor (i.e. one of them does not occur). -/
noncomputable def mrcaAux (a b : String) (acc : ℝ) (top : Bool) (t : PTree) : Option (Bool × ℝ) :=
  if containsLab t a && containsLab t b then
    match t with
    | .leaf _ _ => some (top, acc)
    | .node _ cs =>
      match mrcaChildren a b acc cs with
      | some r => some r
      | none => some (top, acc)
  else none

/-- Descend into the first sibling subtree containing both labels. -/
noncomputable def mrcaChildren (a b : String) (acc : ℝ) (cs : List PTree) : Option (Bool × ℝ) :=
  match cs with
  | [] => none
  | c :: rest =>
    if containsLab c a && containsLab c b then mrcaAux a b (acc + c.brlen) false c
    else mrcaChildren a b acc rest

end

/-- MRCA of two taxa in the whole tree: `some (isRoot, depth)` or `none`. -/
noncomputable def mrcaInfo (t : PTree) (a b : String) : Option (Bool × ℝ) :=
  mrcaAux a b 0 true t

/-- Embeds the dict comprehension `tip_depths`: later leaves with the same
label override earlier ones, so a lookup returns the depth of the last leaf
with the given label (0 if absent, an access the source never performs). -/
noncomputable def tipDepth (t : PTree) (l : String) : ℝ :=
  (((leafList t).reverse).lookup l).getD 0

/-- Lexicographic comparison of character lists by code point, the order
Python's `sorted` uses on strings. -/
def charListLe : List Char → List Char → Bool
  | [], _ => true
  | _ :: _, [] => false
  | a :: as, b :: bs => if a = b then charListLe as bs else decide (a < b)

/-- Lexicographic order on labels. -/
def stringLe (a b : String) : Bool := charListLe a.data b.data

/-- Insert a label into a lexicographically sorted list of labels. -/
def insertSorted (a : String) : List String → List String
  | [] => [a]
  | b :: rest => if stringLe a b then a :: b :: rest else b :: insertSorted a rest

/-- Insertion sort on labels, embedding Python's `sorted`. -/
def sortLabels : List String → List String
  | [] => []
  | a :: rest => insertSorted a (sortLabels rest)

/-- Embeds `self.tips = sorted(list(tip_depths.keys()))`: the distinct leaf
labels in lexicographic order. -/
noncomputable def tipsOf (t : PTree) : List String :=
  sortLabels ((leafLabels t).dedup)


/-- Embeds `combinations_with_replacement(range(n), 2)`: all pairs `(i, j)` with
`i ≤ j < n`, in lexicographic order. -/
def pairsUpTo (n : ℕ) : List (ℕ × ℕ) :=
  (List.range n).flatMap (fun i => (List.range' i (n - i)).map (fun j => (i, j)))

/-- Embeds `torch.eye n`: 1.0 on the diagonal of the `n × n` square, 0.0 elsewhere
(entries outside the square are 0, representing absence). -/
noncomputable def eye (n : ℕ) : ℕ → ℕ → ℝ :=
  fun i j => if i = j ∧ i < n then 1 else 0

/-- The in-place symmetric assignment `m[i, j] = m[j, i] = v`. -/
noncomputable def symmUpdate (m : ℕ → ℕ → ℝ) (i j : ℕ) (v : ℝ) : ℕ → ℕ → ℝ :=
  fun a b => if (a = i ∧ b = j) ∨ (a = j ∧ b = i) then v else m a b

/-- Construction-time failures of `SupConLoss.__init__`.  `duplicateLabel`
stands for the `raise` on line 55 of the source (`Duplicate tip labels found
in the tree`) and `noCommonAncestor` for the `raise` on line 59. -/
inductive BuildErr where
  | duplicateLabel
  | noCommonAncestor
deriving DecidableEq

/-- The `for i, j in combinations_with_replacement(range(n_tips), 2)` loop of
`SupConLoss.__init__`, folded over the remaining pair list: skip the diagonal,
raise on a duplicate tip label, raise when the MRCA is missing, write 0.0 when
the MRCA is the root, and otherwise write
`bm_var / math.sqrt(t1_bm_var * t2_bm_var)`. -/
noncomputable def corrLoop (t : PTree) (tips : List String) :
    List (ℕ × ℕ) → (ℕ → ℕ → ℝ) → Except BuildErr (ℕ → ℕ → ℝ)
  | [], m => .ok m
  | (i, j) :: rest, m =>
    if i = j then corrLoop t tips rest m
    else if tips.getD i "" = tips.getD j "" then .error .duplicateLabel
    else
      match mrcaInfo t (tips.getD i "") (tips.getD j "") with
      | none => .error .noCommonAncestor
      | some (isRoot, d) =>
        if isRoot then corrLoop t tips rest (symmUpdate m i j 0)
        else
          corrLoop t tips rest (symmUpdate m i j
            (d / Real.sqrt (tipDepth t (tips.getD i "") *
              tipDepth t (tips.getD j ""))))

/-- The tree-processing part of `SupConLoss.__init__`: collect tip depths, fix
`tips = sorted(tip_depths.keys())`, start from `torch.eye(n_tips)` and run the
pair loop; the result is the `bm_corr` matrix (or the construction error). -/
noncomputable def buildBmCorr (t : PTree) : Except BuildErr (ℕ → ℕ → ℝ) :=
  corrLoop t (tipsOf t) (pairsUpTo (tipsOf t).length) (eye (tipsOf t).length)

/-- The constructed `bm_corr` matrix of a tree on which construction succeeds
(a zero matrix on trees where it raises, a value the source never exposes). -/
noncomputable def bmCorrOf (t : PTree) : ℕ → ℕ → ℝ :=
  (buildBmCorr t).toOption.getD (fun _ _ => 0)

/-- The generic shape of both symmetric-fill loops of the source: walk the
pair list, skip the diagonal, and perform `m[i, j] = m[j, i] = g i j` on every
off-diagonal pair. -/
noncomputable def pairFold (g : ℕ → ℕ → ℝ) : List (ℕ × ℕ) → (ℕ → ℕ → ℝ) → (ℕ → ℕ → ℝ)
  | [], m => m
  | (i, j) :: rest, m =>
    if i = j then pairFold g rest m
    else pairFold g rest (symmUpdate m i j (g i j))

/-- The value written by the construction loop for an off-diagonal pair of
tip indices: 0.0 when the MRCA is the root, otherwise the brownian-motion
correlation `mrca_depth / sqrt(tip_i_depth * tip_j_depth)` (0 in the
impossible missing-MRCA case, in which construction raises instead). -/
noncomputable def corrVal (t : PTree) (tips : List String) (i j : ℕ) : ℝ :=
  match mrcaInfo t (tips.getD i "") (tips.getD j "") with
  | some (true, _) => 0
  | some (false, d) =>
    d / Real.sqrt (tipDepth t (tips.getD i "") * tipDepth t (tips.getD j ""))
  | none => 0

/-- Call-time failures of `SupConLoss.forward`.  `shapeRank` is the
`at least 3 dimensions are required` raise, `argumentConflict` the
`Cannot define both labels and mask` raise, `labelLengthMismatch` the
`Num of labels does not match num of features` raise, `indexOutOfRange` the
IndexError of `labels[i]` / `bm_corr[tip1, tip2]` indexing in the tree
branch, and `unknownMode` the `Unknown mode` raise. -/
inductive FwdErr where
  | shapeRank
  | argumentConflict
  | labelLengthMismatch
  | indexOutOfRange
  | unknownMode
deriving DecidableEq

/-- The validation and mask-derivation part of `SupConLoss.forward` (lines
84-112 of the source): the rank check on `features.shape`, the
`labels`/`mask` conflict check, and the four mutually exclusive mask
branches.  `treeConfigured` embeds `self.tree_path is not None`; `nTips` and
`bm` are the size and entries of the stored `bm_corr`.  In the tree branch
the source indexes `labels[i]` and `bm_corr[tip1, tip2]` for every
off-diagonal pair `i ≠ j` below `batch_size`, so with `batch_size ≥ 2` a
too-short label list or an out-of-range label value raises an IndexError;
no length-mismatch check exists in that branch. -/
noncomputable def forwardMask (treeConfigured : Bool) (nTips : ℕ) (bm : ℕ → ℕ → ℝ)
    (featShape : List ℕ) (labels : Option (List ℕ)) (mask : Option (ℕ → ℕ → ℝ)) :
    Except FwdErr (ℕ → ℕ → ℝ) :=
  if featShape.length < 3 then .error .shapeRank
  else
    match labels, mask with
    | some _, some _ => .error .argumentConflict
    | none, none => .ok (eye (featShape.headD 0))
    | some ls, none =>
      if treeConfigured then
        if 2 ≤ featShape.headD 0 ∧ (ls.length < featShape.headD 0 ∨
            ((List.range (featShape.headD 0)).any fun i => nTips ≤ ls.getD i 0)) then
          .error .indexOutOfRange
        else
          .ok (pairFold (fun i j => bm (ls.getD i 0) (ls.getD j 0))
            (pairsUpTo (featShape.headD 0)) (eye (featShape.headD 0)))
      else
        if ls.length ≠ featShape.headD 0 then .error .labelLengthMismatch
        else
          .ok (fun i j =>
            if i < featShape.headD 0 ∧ j < featShape.headD 0 ∧
                ls.getD i 0 = ls.getD j 0 then 1 else 0)
    | none, some m => .ok m

/-- The mask produced by a forward call on which mask derivation succeeds
(a zero matrix when it raises, a value the source never exposes). -/
noncomputable def fwdMaskOf (treeConfigured : Bool) (nTips : ℕ) (bm : ℕ → ℕ → ℝ)
    (featShape : List ℕ) (labels : Option (List ℕ)) (mask : Option (ℕ → ℕ → ℝ)) :
    ℕ → ℕ → ℝ :=
  (forwardMask treeConfigured nTips bm featShape labels mask).toOption.getD (fun _ _ => 0)

/-- Embeds `contrast_feature = torch.cat(torch.unbind(features, dim=1), dim=0)`:
row `r` of the concatenation is view `r / B` of sample `r % B`. -/
noncomputable def contrastFeat (B : ℕ) (features : ℕ → ℕ → ℕ → ℝ) : ℕ → ℕ → ℝ :=
  fun r d => features (r % B) (r / B) d

/-- Embeds `anchor_dot_contrast`: dot products of anchor row `a` with
contrast row `c` over the `D` flattened feature coordinates, divided by the
temperature. -/
noncomputable def logitsRaw (T : ℝ) (D : ℕ) (anchorF contrastF : ℕ → ℕ → ℝ)
    (a c : ℕ) : ℝ :=
  (∑ d ∈ Finset.range D, anchorF a d * contrastF c d) / T

/-- Embeds `logits_max, _ = torch.max(anchor_dot_contrast, dim=1)`: the
maximum of `f` over `0, …, n-1` (seeded with `f 0`, which for `n ≥ 1` is a
member of the row, so this is the row maximum; `torch.max` on an empty row
would raise). -/
noncomputable def rowMax (n : ℕ) (f : ℕ → ℝ) : ℝ :=
  (List.range n).foldl (fun m c => max m (f c)) (f 0)

/-- Embeds `logits = anchor_dot_contrast - logits_max.detach()` (`detach`
only severs gradients and is the identity on values). -/
noncomputable def logitsSt (T : ℝ) (D n : ℕ) (anchorF contrastF : ℕ → ℕ → ℝ)
    (a c : ℕ) : ℝ :=
  logitsRaw T D anchorF contrastF a c - rowMax n (logitsRaw T D anchorF contrastF a)

/-- Embeds `logits_mask`: all-ones with a 0 scattered at each row's own
column index (the self-contrast position). -/
noncomputable def logitsMask (r c : ℕ) : ℝ := if c = r then 0 else 1

/-- Embeds `mask = mask.repeat(anchor_count, contrast_count)` followed by
`mask = mask * logits_mask`: the `B × B` mask tiled over the
`(B·anchor_count) × (B·contrast_count)` space with self-contrast zeroed. -/
noncomputable def posMask (B : ℕ) (mask : ℕ → ℕ → ℝ) (r c : ℕ) : ℝ :=
  mask (r % B) (c % B) * logitsMask r c

/-- Embeds `exp_logits.sum(1)` with `exp_logits = torch.exp(logits) * logits_mask`:
the softmax denominator over the `n = B·contrast_count` columns. -/
noncomputable def expLogitSum (T : ℝ) (D n : ℕ) (anchorF contrastF : ℕ → ℕ → ℝ)
    (a : ℕ) : ℝ :=
  ∑ c ∈ Finset.range n, Real.exp (logitsSt T D n anchorF contrastF a c) * logitsMask a c

/-- Embeds `log_prob = logits - torch.log(exp_logits.sum(1, keepdim=True))`. -/
noncomputable def logProb (T : ℝ) (D n : ℕ) (anchorF contrastF : ℕ → ℕ → ℝ)
    (a c : ℕ) : ℝ :=
  logitsSt T D n anchorF contrastF a c - Real.log (expLogitSum T D n anchorF contrastF a)

/-- Embeds `mask.sum(1)` on the tiled, self-masked mask. -/
noncomputable def maskRowSum (B n : ℕ) (mask : ℕ → ℕ → ℝ) (a : ℕ) : ℝ :=
  ∑ c ∈ Finset.range n, posMask B mask a c

/-- Embeds `mean_log_prob_pos = (mask * log_prob).sum(1) / mask.sum(1)`. -/
noncomputable def meanLogProbPos (T : ℝ) (D B n : ℕ)
    (anchorF contrastF : ℕ → ℕ → ℝ) (mask : ℕ → ℕ → ℝ) (a : ℕ) : ℝ :=
  (∑ c ∈ Finset.range n, posMask B mask a c * logProb T D n anchorF contrastF a c) /
    maskRowSum B n mask a

/-- Embeds lines 128-158 of the source: per-anchor-row losses
`-(temperature / base_temperature) * mean_log_prob_pos` averaged over all
`B·anchor_count` anchor rows by `loss.view(anchor_count, batch_size).mean()`. -/
noncomputable def supConLossVal (T Tb : ℝ) (B V D A : ℕ)
    (anchorF : ℕ → ℕ → ℝ) (contrastF : ℕ → ℕ → ℝ) (mask : ℕ → ℕ → ℝ) : ℝ :=
  (∑ a ∈ Finset.range (B * A),
    -(T / Tb) * meanLogProbPos T D B (B * V) anchorF contrastF mask a) / ((B * A : ℕ) : ℝ)

/-- The anchor-row count of a contrast mode (`anchor_count`). -/
def anchorCountOf (mode : String) (V : ℕ) : ℕ := if mode = "one" then 1 else V

/-- The anchor feature rows of a contrast mode: `features[:, 0]` in `one`
mode, the full concatenation in `all` mode. -/
noncomputable def anchorFeatOf (mode : String) (B : ℕ)
    (features : ℕ → ℕ → ℕ → ℝ) : ℕ → ℕ → ℝ :=
  if mode = "one" then (fun a d => features a 0 d) else contrastFeat B features

/-- The whole of `SupConLoss.forward`: validation and mask derivation, then
anchor selection by `contrast_mode`, then the contrastive computation.
`featShape` is `features.shape`; `features b v d` is the embedding value at
sample `b`, view `v`, flattened trailing coordinate `d` (the source flattens
trailing axes beyond the second with `view`, so `D` is the product of the
trailing dimensions). -/
noncomputable def supConForward (treeConfigured : Bool) (nTips : ℕ) (bm : ℕ → ℕ → ℝ)
    (T Tb : ℝ) (mode : String) (featShape : List ℕ) (features : ℕ → ℕ → ℕ → ℝ)
    (labels : Option (List ℕ)) (maskArg : Option (ℕ → ℕ → ℝ)) : Except FwdErr ℝ :=
  match forwardMask treeConfigured nTips bm featShape labels maskArg with
  | .error e => .error e
  | .ok mask =>
    if mode = "one" then
      .ok (supConLossVal T Tb (featShape.headD 0) (featShape.getD 1 0)
        ((featShape.drop 2).prod) 1 (fun a d => features a 0 d)
        (contrastFeat (featShape.headD 0) features) mask)
    else if mode = "all" then
      .ok (supConLossVal T Tb (featShape.headD 0) (featShape.getD 1 0)
        ((featShape.drop 2).prod) (featShape.getD 1 0)
        (contrastFeat (featShape.headD 0) features)
        (contrastFeat (featShape.headD 0) features) mask)
    else .error .unknownMode

/-- Modelled from the spec's description of the forward pass (sections 4.2
and the claim text): per anchor row,
`log_prob = logit - log(sum of exp(logit) over all non-self columns)` with
the plain logits `anchor·contrast / temperature` (no stability shift). -/
noncomputable def specLogProb (T : ℝ) (D n : ℕ) (anchorF contrastF : ℕ → ℕ → ℝ)
    (a c : ℕ) : ℝ :=
  logitsRaw T D anchorF contrastF a c -
    Real.log (∑ x ∈ (Finset.range n).erase a, Real.exp (logitsRaw T D anchorF contrastF a x))

/-- Modelled from the spec's description of the scalar loss:
`-(temperature/base_temperature)` times the mean over all anchor rows of
`sum(mask * log_prob) / sum(mask)`. -/
noncomputable def specSupConLoss (T Tb : ℝ) (B V D A : ℕ)
    (anchorF contrastF : ℕ → ℕ → ℝ) (mask : ℕ → ℕ → ℝ) : ℝ :=
  -(T / Tb) *
    ((∑ a ∈ Finset.range (B * A),
      (∑ c ∈ Finset.range (B * V),
        posMask B mask a c * specLogProb T D (B * V) anchorF contrastF a c) /
        (∑ c ∈ Finset.range (B * V), posMask B mask a c)) / ((B * A : ℕ) : ℝ))

/-- Call-time failure of `LabelSmoothingLoss.forward`: the
`Input tensors must have the same batch size` raise.  The `isinstance` type
check has no counterpart in a typed embedding. -/
inductive SmoothErr where
  | batchSizeMismatch
deriving DecidableEq

/-- Embeds `pred.log_softmax(dim=-1)` on a `[B, C]` prediction matrix. -/
noncomputable def logSoftmax (C : ℕ) (pred : ℕ → ℕ → ℝ) (b c : ℕ) : ℝ :=
  pred b c - Real.log (∑ k ∈ Finset.range C, Real.exp (pred b k))

/-- Embeds the smoothed target distribution: `fill_(smoothing / (cls - 1))`
then `scatter_` of `confidence = 1.0 - smoothing` at the target class. -/
noncomputable def trueDist (classes : ℕ) (smoothing : ℝ) (target : List ℕ)
    (b c : ℕ) : ℝ :=
  if c = target.getD b 0 then 1 - smoothing else smoothing / ((classes : ℝ) - 1)

/-- Embeds `LabelSmoothingLoss.forward` on a `[B, C]` prediction matrix and a
length-`B` target vector with the default `dim = -1`:
`torch.mean(torch.sum(-true_dist * pred, dim=-1))` after the batch-size
check. -/
noncomputable def labelSmoothingForward (classes : ℕ) (smoothing : ℝ) (B C : ℕ)
    (pred : ℕ → ℕ → ℝ) (target : List ℕ) : Except SmoothErr ℝ :=
  if target.length ≠ B then .error .batchSizeMismatch
  else
    .ok ((∑ b ∈ Finset.range B, ∑ c ∈ Finset.range C,
      -(trueDist classes smoothing target b c * logSoftmax C pred b c)) / (B : ℝ))

/-- Modelled from the spec: standard cross-entropy loss, the mean over the
batch of the negative log-softmax probability of the true class. -/
noncomputable def crossEntropyLoss (B C : ℕ) (pred : ℕ → ℕ → ℝ)
    (target : List ℕ) : ℝ :=
  (∑ b ∈ Finset.range B, -(logSoftmax C pred b (target.getD b 0))) / (B : ℝ)

/-- Concrete tree for witnesses, the spec's end-to-end scenario: four leaves
`A, B, C, D` where `(A, B)` and `(C, D)` each share a recent ancestor and the
two clades split at the root. -/
noncomputable def T4 : PTree :=
  .node 0 [.node 3 [.leaf "A" 2, .leaf "B" 2], .node 1 [.leaf "C" 4, .leaf "D" 4]]

/-- Concrete tree with two leaves sharing the taxon label `A`. -/
noncomputable def Tdup : PTree :=
  .node 0 [.node 1 [.leaf "A" 1, .leaf "A" 2], .leaf "B" 1]

/-- Concrete features for witnesses. -/
noncomputable def exFeat : ℕ → ℕ → ℕ → ℝ := fun _ _ _ => 1

/-- Concrete predictions for the label-smoothing witness, the spec's own
example `pred = [[2, 0, 0]]`. -/
noncomputable def exPred : ℕ → ℕ → ℝ := fun _ c => if c = 0 then 2 else 0

/-- The loss value returned by the witness forward call (`B = 1`, `V = 2`,
`D = 1`, no labels, no mask, mode `all`). -/
noncomputable def exLoss : ℝ :=
  match supConForward false 0 (fun _ _ => 0) 1 1 "all" [1, 2, 1] exFeat none none with
  | .ok L => L
  | .error _ => 0

theorem insertSorted_perm (a : String) (l : List String) :
    (insertSorted a l).Perm (a :: l) := by
  induction l with
  | nil => simp [insertSorted]
  | cons b rest ih =>
    by_cases h : stringLe a b = true
    · simp [insertSorted, h]
    · simp only [insertSorted, h, if_false]
      exact (ih.cons b).trans (List.Perm.swap a b rest)

theorem sortLabels_perm (l : List String) : (sortLabels l).Perm l := by
  induction l with
  | nil => simp [sortLabels]
  | cons a rest ih => exact (insertSorted_perm a (sortLabels rest)).trans (ih.cons a)

theorem tipsOf_nodup (t : PTree) : (tipsOf t).Nodup :=
  ((sortLabels_perm _).nodup_iff).mpr (List.nodup_dedup _)

theorem mem_tipsOf {t : PTree} {a : String} : a ∈ tipsOf t ↔ a ∈ leafLabels t := by
  rw [tipsOf, (sortLabels_perm _).mem_iff, List.mem_dedup]

theorem nodup_getD_ne {l : List String} (h : l.Nodup) {i j : ℕ}
    (hi : i < l.length) (hj : j < l.length) (hij : i ≠ j) :
    l.getD i "" ≠ l.getD j "" := by
  rw [l.getD_eq_getElem "" hi, l.getD_eq_getElem "" hj]
  intro he
  exact hij (h.getElem_inj_iff.mp he)

theorem mem_pairsUpTo {n : ℕ} {p : ℕ × ℕ} :
    p ∈ pairsUpTo n ↔ p.1 ≤ p.2 ∧ p.2 < n := by
  obtain ⟨i, j⟩ := p
  simp only [pairsUpTo, List.mem_flatMap, List.mem_map, List.mem_range,
    List.mem_range'_1, Prod.mk.injEq]
  constructor
  · rintro ⟨a, ha, b, ⟨hb1, hb2⟩, rfl, rfl⟩
    exact ⟨hb1, by omega⟩
  · rintro ⟨h1, h2⟩
    exact ⟨i, by omega, ⟨j, ⟨h1, by omega⟩, rfl, rfl⟩⟩

theorem nodup_pairsUpTo (n : ℕ) : (pairsUpTo n).Nodup := by
  rw [pairsUpTo, List.nodup_flatMap]
  refine ⟨fun i _ => ?_, ?_⟩
  · exact (List.nodup_range' ..).map (fun x y hxy => by
      simpa using congrArg Prod.snd hxy)
  · have : (List.range n).Pairwise (· < ·) := List.pairwise_lt_range n
    refine this.imp ?_
    intro a b hab
    intro p hp1 hp2
    simp only [List.mem_map] at hp1 hp2
    obtain ⟨x, _, rfl⟩ := hp1
    obtain ⟨y, _, hy⟩ := hp2
    exact absurd (congrArg Prod.fst hy).symm (by omega)

theorem pairFold_untouched (g : ℕ → ℕ → ℝ) (a b : ℕ) :
    ∀ (l : List (ℕ × ℕ)) (m0 : ℕ → ℕ → ℝ),
      (∀ p ∈ l, p.1 ≠ p.2 → ¬((a = p.1 ∧ b = p.2) ∨ (a = p.2 ∧ b = p.1))) →
      pairFold g l m0 a b = m0 a b := by
  intro l
  induction l with
  | nil => intro m0 _; rfl
  | cons q rest ih =>
    intro m0 h
    obtain ⟨i, j⟩ := q
    by_cases hij : i = j
    · simpa [pairFold, hij] using ih m0 (fun p hp => h p (List.mem_cons_of_mem _ hp))
    · have hn := h (i, j) (List.mem_cons_self ..) hij
      simp only [pairFold, hij, if_false]
      rw [ih _ (fun p hp => h p (List.mem_cons_of_mem _ hp))]
      simp only [symmUpdate, if_neg hn]

theorem pairFold_hit (g : ℕ → ℕ → ℝ) (a b i j : ℕ) (hij : i ≠ j)
    (hab : (a = i ∧ b = j) ∨ (a = j ∧ b = i)) :
    ∀ (l : List (ℕ × ℕ)) (m0 : ℕ → ℕ → ℝ),
      (i, j) ∈ l → l.Nodup → (∀ p ∈ l, p.1 ≤ p.2) →
      pairFold g l m0 a b = g i j := by
  intro l
  induction l with
  | nil => intro m0 hmem; cases hmem
  | cons q rest ih =>
    intro m0 hmem hnd hnorm
    obtain ⟨i', j'⟩ := q
    rcases List.mem_cons.mp hmem with hq | hrest
    · rw [Prod.mk.injEq] at hq
      obtain ⟨rfl, rfl⟩ := hq
      simp only [pairFold, hij, if_false]
      rw [pairFold_untouched]
      · simp only [symmUpdate, if_pos hab]
      · intro p hp hp12 hmatch
        have hle : p.1 ≤ p.2 := hnorm p (List.mem_cons_of_mem _ hp)
        have hile : i ≤ j := hnorm (i, j) (List.mem_cons_self ..)
        have hpij : p = (i, j) := by
          obtain ⟨x, y⟩ := p
          simp only [Prod.mk.injEq]
          rcases hmatch with ⟨h1, h2⟩ | ⟨h1, h2⟩ <;> rcases hab with ⟨h3, h4⟩ | ⟨h3, h4⟩ <;>
            subst h1 <;> subst h2 <;> subst h3 <;> subst h4 <;>
            simp only [Prod.fst, Prod.snd] at hle hile <;> omega
        exact absurd (hpij ▸ hp) (List.nodup_cons.mp hnd).1
    · by_cases hij' : i' = j'
      · simpa [pairFold, hij'] using
          ih m0 hrest (List.nodup_cons.mp hnd).2
            (fun p hp => hnorm p (List.mem_cons_of_mem _ hp))
      · simp only [pairFold, hij', if_false]
        exact ih _ hrest (List.nodup_cons.mp hnd).2
          (fun p hp => hnorm p (List.mem_cons_of_mem _ hp))

theorem pairFold_diag (g : ℕ → ℕ → ℝ) (l : List (ℕ × ℕ)) (m0 : ℕ → ℕ → ℝ) (a : ℕ) :
    pairFold g l m0 a a = m0 a a := by
  apply pairFold_untouched
  intro p _ hp12 hmatch
  rcases hmatch with ⟨h1, h2⟩ | ⟨h1, h2⟩ <;> exact hp12 (h1 ▸ h2 ▸ rfl)

theorem pairFold_symm (g : ℕ → ℕ → ℝ) (a b : ℕ) :
    ∀ (l : List (ℕ × ℕ)) (m0 : ℕ → ℕ → ℝ), (∀ x y, m0 x y = m0 y x) →
      pairFold g l m0 a b = pairFold g l m0 b a := by
  intro l
  induction l with
  | nil => intro m0 h0; exact h0 a b
  | cons q rest ih =>
    intro m0 h0
    obtain ⟨i, j⟩ := q
    by_cases hij : i = j
    · simpa [pairFold, hij] using ih m0 h0
    · simp only [pairFold, hij, if_false]
      refine ih _ ?_
      intro x y
      simp only [symmUpdate]
      by_cases hxy : (x = i ∧ y = j) ∨ (x = j ∧ y = i)
      · rw [if_pos hxy, if_pos (by tauto)]
      · rw [if_neg hxy, if_neg (by tauto), h0]

theorem pairFold_congr (g1 g2 : ℕ → ℕ → ℝ) :
    ∀ (l : List (ℕ × ℕ)) (m0 : ℕ → ℕ → ℝ),
      (∀ p ∈ l, p.1 ≠ p.2 → g1 p.1 p.2 = g2 p.1 p.2) →
      pairFold g1 l m0 = pairFold g2 l m0 := by
  intro l
  induction l with
  | nil => intro m0 _; rfl
  | cons q rest ih =>
    intro m0 h
    obtain ⟨i, j⟩ := q
    by_cases hij : i = j
    · simpa [pairFold, hij] using ih m0 (fun p hp => h p (List.mem_cons_of_mem _ hp))
    · simp only [pairFold, hij, if_false]
      rw [h (i, j) (List.mem_cons_self ..) hij]
      exact ih _ (fun p hp => h p (List.mem_cons_of_mem _ hp))

theorem corrLoop_ok_eq (t : PTree) (tips : List String) :
    ∀ (l : List (ℕ × ℕ)) (m0 m : ℕ → ℕ → ℝ),
      corrLoop t tips l m0 = .ok m → m = pairFold (corrVal t tips) l m0 := by
  intro l
  induction l with
  | nil => intro m0 m h; exact (Except.ok.inj h).symm
  | cons q rest ih =>
    intro m0 m h
    obtain ⟨i, j⟩ := q
    by_cases hij : i = j
    · simp only [corrLoop, hij, if_true] at h
      simpa [pairFold, hij] using ih m0 m h
    · simp only [corrLoop, hij, if_false] at h
      by_cases hdup : tips.getD i "" = tips.getD j ""
      · rw [if_pos hdup] at h; cases h
      · rw [if_neg hdup] at h
        simp only [pairFold, hij, if_false]
        rcases hmr : mrcaInfo t (tips.getD i "") (tips.getD j "") with _ | ⟨isRoot, d⟩
        · rw [hmr] at h; cases h
        · rw [hmr] at h
          rcases isRoot with _ | _
          · simp only [Bool.false_eq_true, if_false] at h
            rw [ih _ m h]
            have hv : corrVal t tips i j =
                d / Real.sqrt (tipDepth t (tips.getD i "") * tipDepth t (tips.getD j "")) := by
              unfold corrVal
              rw [hmr]
            rw [hv]
          · simp only [if_true] at h
            rw [ih _ m h]
            have hv : corrVal t tips i j = 0 := by
              unfold corrVal
              rw [hmr]
            rw [hv]

theorem corrLoop_ok_mrca (t : PTree) (tips : List String) :
    ∀ (l : List (ℕ × ℕ)) (m0 m : ℕ → ℕ → ℝ),
      corrLoop t tips l m0 = .ok m →
      ∀ p ∈ l, p.1 ≠ p.2 →
        tips.getD p.1 "" ≠ tips.getD p.2 "" ∧
        mrcaInfo t (tips.getD p.1 "") (tips.getD p.2 "") ≠ none := by
  intro l
  induction l with
  | nil => intro m0 m _ p hp; cases hp
  | cons q rest ih =>
    intro m0 m h p hp hp12
    obtain ⟨i, j⟩ := q
    rcases List.mem_cons.mp hp with rfl | hprest
    · simp only at hp12
      simp only [corrLoop, hp12, if_false] at h
      by_cases hdup : tips.getD i "" = tips.getD j ""
      · rw [if_pos hdup] at h; cases h
      · rw [if_neg hdup] at h
        refine ⟨hdup, ?_⟩
        rcases hmr : mrcaInfo t (tips.getD i "") (tips.getD j "") with _ | ⟨isRoot, d⟩
        · rw [hmr] at h; cases h
        · simp [hmr]
    · by_cases hij : i = j
      · simp only [corrLoop, hij, if_true] at h
        exact ih _ m h p hprest hp12
      · simp only [corrLoop, hij, if_false] at h
        by_cases hdup : tips.getD i "" = tips.getD j ""
        · rw [if_pos hdup] at h; cases h
        · rw [if_neg hdup] at h
          rcases hmr : mrcaInfo t (tips.getD i "") (tips.getD j "") with _ | ⟨isRoot, d⟩
          · rw [hmr] at h; cases h
          · rw [hmr] at h
            rcases isRoot with _ | _
            · simp only [Bool.false_eq_true, if_false] at h
              exact ih _ m h p hprest hp12
            · simp only [if_true] at h
              exact ih _ m h p hprest hp12

theorem corrLoop_ne_duplicate (t : PTree) (tips : List String) :
    ∀ (l : List (ℕ × ℕ)) (m0 : ℕ → ℕ → ℝ),
      (∀ p ∈ l, p.1 ≠ p.2 → tips.getD p.1 "" ≠ tips.getD p.2 "") →
      corrLoop t tips l m0 ≠ .error .duplicateLabel := by
  intro l
  induction l with
  | nil => intro m0 _ h; cases h
  | cons q rest ih =>
    intro m0 hnodup
    obtain ⟨i, j⟩ := q
    by_cases hij : i = j
    · simp only [corrLoop, hij, if_true]
      exact ih m0 (fun p hp => hnodup p (List.mem_cons_of_mem _ hp))
    · simp only [corrLoop, hij, if_false]
      rw [if_neg (hnodup (i, j) (List.mem_cons_self ..) hij)]
      rcases hmr : mrcaInfo t (tips.getD i "") (tips.getD j "") with _ | ⟨isRoot, d⟩
      · intro h; cases Except.error.inj h
      · rcases isRoot with _ | _
        · simp only [Bool.false_eq_true, if_false]
          exact ih _ (fun p hp => hnodup p (List.mem_cons_of_mem _ hp))
        · simp only [if_true]
          exact ih _ (fun p hp => hnodup p (List.mem_cons_of_mem _ hp))

theorem PTree.inductionOn {motive : PTree → Prop}
    (hleaf : ∀ lab len, motive (.leaf lab len))
    (hnode : ∀ len cs, (∀ c ∈ cs, motive c) → motive (.node len cs)) :
    ∀ t, motive t
  | .leaf lab len => hleaf lab len
  | .node len cs => hnode len cs (fun c hc => PTree.inductionOn hleaf hnode c)
termination_by t => sizeOf t
decreasing_by
  have := List.sizeOf_lt_of_mem hc
  simp only [PTree.node.sizeOf_spec]
  omega

theorem containsLabChildren_iff {l : String} :
    ∀ {cs : List PTree}, containsLabChildren cs l = true ↔
      ∃ c ∈ cs, containsLab c l = true := by
  intro cs
  induction cs with
  | nil => simp [containsLabChildren]
  | cons c rest ih => simp [containsLabChildren, ih]

theorem nonnegLens_brlen {c : PTree} (h : nonnegLens c) : 0 ≤ c.brlen := by
  cases c with
  | leaf lab len => exact h
  | node len cs => exact h.1

theorem nonnegLensChildren_mem {cs : List PTree} (h : nonnegLensChildren cs)
    {c : PTree} (hc : c ∈ cs) : nonnegLens c := by
  induction cs with
  | nil => cases hc
  | cons c0 rest ih =>
    rcases List.mem_cons.mp hc with rfl | hrest
    · exact h.1
    · exact ih h.2 hrest

theorem leafListChildren_sub {acc : ℝ} :
    ∀ {cs : List PTree} {c : PTree}, c ∈ cs →
      ∀ x ∈ leafListFrom (acc + c.brlen) c, x ∈ leafListChildren acc cs := by
  intro cs
  induction cs with
  | nil => intro c hc; cases hc
  | cons c0 rest ih =>
    intro c hc x hx
    rcases List.mem_cons.mp hc with rfl | hrest
    · exact List.mem_append_left _ hx
    · exact List.mem_append_right _ (ih hrest x hx)

theorem contains_leafDepth {a : String} :
    ∀ t : PTree, containsLab t a = true →
      ∀ acc : ℝ, ∃ da, (a, da) ∈ leafListFrom acc t ∧ (nonnegLens t → acc ≤ da) := by
  refine PTree.inductionOn ?_ ?_
  · intro lab len h acc
    simp only [containsLab, decide_eq_true_eq] at h
    exact ⟨acc, by simp [leafListFrom, h], fun _ => le_refl acc⟩
  · intro len cs ih h acc
    simp only [containsLab] at h
    obtain ⟨c, hc, hcont⟩ := containsLabChildren_iff.mp h
    obtain ⟨da, hmem, hle⟩ := ih c hc hcont (acc + c.brlen)
    refine ⟨da, leafListChildren_sub hc _ hmem, ?_⟩
    intro hnn
    have h1 : 0 ≤ c.brlen := nonnegLens_brlen (nonnegLensChildren_mem hnn.2 hc)
    have h2 := hle (nonnegLensChildren_mem hnn.2 hc)
    linarith

theorem mrcaChildren_bounds {a b : String} :
    ∀ (cs : List PTree),
      (∀ c ∈ cs, ∀ (acc2 : ℝ) (top : Bool) (r2 : Bool) (d2 : ℝ), nonnegLens c →
        mrcaAux a b acc2 top c = some (r2, d2) →
        acc2 ≤ d2 ∧ (∃ da, (a, da) ∈ leafListFrom acc2 c ∧ d2 ≤ da) ∧
          (∃ db, (b, db) ∈ leafListFrom acc2 c ∧ d2 ≤ db)) →
      ∀ (acc : ℝ) (r : Bool) (d : ℝ), nonnegLensChildren cs →
        mrcaChildren a b acc cs = some (r, d) →
        acc ≤ d ∧ (∃ da, (a, da) ∈ leafListChildren acc cs ∧ d ≤ da) ∧
          (∃ db, (b, db) ∈ leafListChildren acc cs ∧ d ≤ db) := by
  intro cs
  induction cs with
  | nil => intro _ acc r d _ h; cases h
  | cons c rest ih =>
    intro hall acc r d hnn h
    simp only [mrcaChildren] at h
    by_cases hg : (containsLab c a && containsLab c b) = true
    · rw [if_pos hg] at h
      obtain ⟨h1, ⟨da, hda, hda2⟩, ⟨db, hdb, hdb2⟩⟩ :=
        hall c (List.mem_cons_self ..) (acc + c.brlen) false r d hnn.1 h
      have h0 : 0 ≤ c.brlen := nonnegLens_brlen hnn.1
      exact ⟨by linarith,
        ⟨da, List.mem_append_left _ hda, hda2⟩,
        ⟨db, List.mem_append_left _ hdb, hdb2⟩⟩
    · rw [if_neg hg] at h
      obtain ⟨h1, ⟨da, hda, hda2⟩, ⟨db, hdb, hdb2⟩⟩ :=
        ih (fun c2 hc2 => hall c2 (List.mem_cons_of_mem _ hc2)) acc r d hnn.2 h
      exact ⟨h1, ⟨da, List.mem_append_right _ hda, hda2⟩,
        ⟨db, List.mem_append_right _ hdb, hdb2⟩⟩

theorem mrcaAux_bounds {a b : String} :
    ∀ (t : PTree) (acc : ℝ) (top : Bool) (r : Bool) (d : ℝ), nonnegLens t →
      mrcaAux a b acc top t = some (r, d) →
      acc ≤ d ∧ (∃ da, (a, da) ∈ leafListFrom acc t ∧ d ≤ da) ∧
        (∃ db, (b, db) ∈ leafListFrom acc t ∧ d ≤ db) := by
  refine PTree.inductionOn ?_ ?_
  · intro lab len acc top r d _ h
    simp only [mrcaAux] at h
    by_cases hg : (containsLab (.leaf lab len) a && containsLab (.leaf lab len) b) = true
    · rw [if_pos hg] at h
      obtain ⟨rfl, rfl⟩ : top = r ∧ acc = d := by
        have := Option.some.inj h
        exact ⟨congrArg Prod.fst this, congrArg Prod.snd this⟩
      simp only [containsLab, Bool.and_eq_true, decide_eq_true_eq] at hg
      exact ⟨le_refl _, ⟨acc, by simp [leafListFrom, hg.1], le_refl _⟩,
        ⟨acc, by simp [leafListFrom, hg.2], le_refl _⟩⟩
    · rw [if_neg hg] at h; cases h
  · intro len cs ih acc top r d hnn h
    simp only [mrcaAux] at h
    by_cases hg : (containsLab (.node len cs) a && containsLab (.node len cs) b) = true
    · rw [if_pos hg] at h
      rcases hmc : mrcaChildren a b acc cs with _ | r'
      · rw [hmc] at h
        obtain ⟨rfl, rfl⟩ : top = r ∧ acc = d := by
          have := Option.some.inj h
          exact ⟨congrArg Prod.fst this, congrArg Prod.snd this⟩
        simp only [Bool.and_eq_true] at hg
        obtain ⟨da, hda, hda2⟩ := contains_leafDepth _ hg.1 acc
        obtain ⟨db, hdb, hdb2⟩ := contains_leafDepth _ hg.2 acc
        exact ⟨le_refl _, ⟨da, hda, hda2 hnn⟩, ⟨db, hdb, hdb2 hnn⟩⟩
      · rw [hmc] at h
        obtain rfl : r' = (r, d) := Option.some.inj h
        exact mrcaChildren_bounds cs
          (fun c hc acc2 top2 r2 d2 hnn2 h2 => ih c hc acc2 top2 r2 d2 hnn2 h2)
          acc r d hnn.2 hmc
    · rw [if_neg hg] at h; cases h

theorem lookup_append_or (a : String) :
    ∀ (l1 l2 : List (String × ℝ)),
      (l1 ++ l2).lookup a = (l1.lookup a).or (l2.lookup a) := by
  intro l1
  induction l1 with
  | nil => intro l2; simp
  | cons p rest ih =>
    intro l2
    obtain ⟨k, v⟩ := p
    by_cases hk : a == k
    · simp [List.lookup, hk]
    · simp only [List.cons_append, List.lookup, hk]
      exact ih l2

theorem lookup_eq_none_of_not_mem_keys (a : String) :
    ∀ (l : List (String × ℝ)), a ∉ l.map Prod.fst → l.lookup a = none := by
  intro l
  induction l with
  | nil => intro _; rfl
  | cons p rest ih =>
    intro h
    obtain ⟨k, v⟩ := p
    simp only [List.map_cons, List.mem_cons, not_or] at h
    have hk : (a == k) = false := beq_false_of_ne h.1
    simp only [List.lookup, hk]
    exact ih h.2

theorem lookup_reverse_of_nodup_keys {a : String} {da : ℝ} :
    ∀ (l : List (String × ℝ)), (l.map Prod.fst).Nodup → (a, da) ∈ l →
      l.reverse.lookup a = some da := by
  intro l
  induction l with
  | nil => intro _ h; cases h
  | cons p rest ih =>
    intro hnd hmem
    obtain ⟨k, v⟩ := p
    simp only [List.map_cons, List.nodup_cons] at hnd
    simp only [List.reverse_cons, lookup_append_or]
    rcases List.mem_cons.mp hmem with hq | hrest
    · rw [Prod.mk.injEq] at hq
      obtain ⟨rfl, rfl⟩ := hq
      rw [lookup_eq_none_of_not_mem_keys]
      · simp [List.lookup]
      · rw [List.map_reverse, List.mem_reverse]
        exact hnd.1
    · rw [ih hnd.2 hrest]
      rfl

theorem tipDepth_of_mem {t : PTree} {a : String} {da : ℝ}
    (hnd : (leafLabels t).Nodup) (hmem : (a, da) ∈ leafList t) :
    tipDepth t a = da := by
  rw [tipDepth, lookup_reverse_of_nodup_keys (leafList t) hnd hmem]
  rfl

theorem mrcaInfo_bounds {t : PTree} {a b : String} {r : Bool} {d : ℝ}
    (hnn : nonnegLens t) (hnd : (leafLabels t).Nodup)
    (h : mrcaInfo t a b = some (r, d)) :
    0 ≤ d ∧ d ≤ tipDepth t a ∧ d ≤ tipDepth t b := by
  obtain ⟨h0, ⟨da, hda, hda2⟩, ⟨db, hdb, hdb2⟩⟩ := mrcaAux_bounds t 0 true r d hnn h
  rw [tipDepth_of_mem hnd hda, tipDepth_of_mem hnd hdb]
  exact ⟨h0, hda2, hdb2⟩

theorem mrcaChildren_comm {a b : String} :
    ∀ (cs : List PTree),
      (∀ c ∈ cs, ∀ (acc2 : ℝ) (top : Bool),
        mrcaAux a b acc2 top c = mrcaAux b a acc2 top c) →
      ∀ (acc : ℝ), mrcaChildren a b acc cs = mrcaChildren b a acc cs := by
  intro cs
  induction cs with
  | nil => intro _ acc; rfl
  | cons c rest ih =>
    intro hall acc
    simp only [mrcaChildren, Bool.and_comm (containsLab c a)]
    by_cases hg : (containsLab c b && containsLab c a) = true
    · rw [if_pos hg, if_pos hg]
      exact hall c (List.mem_cons_self ..) _ false
    · rw [if_neg hg, if_neg hg]
      exact ih (fun c2 hc2 => hall c2 (List.mem_cons_of_mem _ hc2)) acc

theorem mrcaAux_comm {a b : String} :
    ∀ (t : PTree) (acc : ℝ) (top : Bool),
      mrcaAux a b acc top t = mrcaAux b a acc top t := by
  refine PTree.inductionOn ?_ ?_
  · intro lab len acc top
    simp only [mrcaAux, Bool.and_comm (containsLab (.leaf lab len) a)]
  · intro len cs ih acc top
    simp only [mrcaAux, Bool.and_comm (containsLab (.node len cs) a)]
    rw [mrcaChildren_comm cs (fun c hc acc2 top2 => ih c hc acc2 top2) acc]

theorem mrcaInfo_comm (t : PTree) (a b : String) : mrcaInfo t a b = mrcaInfo t b a :=
  mrcaAux_comm t 0 true

theorem corr_ratio_bounds {d da db : ℝ} (h0 : 0 ≤ d) (h1 : d ≤ da) (h2 : d ≤ db) :
    0 ≤ d / Real.sqrt (da * db) ∧ d / Real.sqrt (da * db) ≤ 1 := by
  refine ⟨div_nonneg h0 (Real.sqrt_nonneg _), ?_⟩
  by_cases hs : Real.sqrt (da * db) = 0
  · rw [hs, div_zero]
    exact zero_le_one
  · have hpos : 0 < Real.sqrt (da * db) :=
      lt_of_le_of_ne (Real.sqrt_nonneg _) (Ne.symm hs)
    rw [div_le_one hpos]
    calc d = Real.sqrt (d ^ 2) := (Real.sqrt_sq h0).symm
      _ ≤ Real.sqrt (da * db) := Real.sqrt_le_sqrt (by nlinarith)

/-- C1: claim — constructing `SupConLoss` with a tree in which two leaves
share a taxon label always fails with the duplicate-label error.  This is
false on the code: the `tip_depths` dict comprehension collapses duplicate
labels before the check on line 54 ever runs, so the check compares entries
of the already-deduplicated sorted `self.tips` list and can never fire.  The
theorem records (1) that no tree whatsoever can produce the duplicate-label
error, and (2) that on the concrete duplicate-label tree `Tdup` the tip list
is silently deduplicated and construction succeeds. -/
theorem c1_duplicate_tree_constructs :
    (∀ t : PTree, buildBmCorr t ≠ .error .duplicateLabel) ∧
    tipsOf Tdup = ["A", "B"] ∧ (buildBmCorr Tdup).isOk = true := by
  refine ⟨?_, rfl, rfl⟩
  intro t
  apply corrLoop_ne_duplicate
  intro p hp hp12
  obtain ⟨hle, hlt⟩ := mem_pairsUpTo.mp hp
  exact nodup_getD_ne (tipsOf_nodup t) (by omega) hlt hp12

/-- C2: for every pair of distinct tip indices of a tree on which
construction succeeds, the `bm_corr` entry is 0.0 when the MRCA of the two
tips is the tree's root, and `mrca_depth / sqrt(tip_i_depth * tip_j_depth)`
otherwise, where the depths are cumulative distances from the root.
Confirmed as stated. -/
theorem c2_bm_corr_entry (t : PTree) (m : ℕ → ℕ → ℝ) (i j : ℕ) (r : Bool) (d : ℝ)
    (hok : buildBmCorr t = .ok m) (hij : i ≠ j)
    (hi : i < (tipsOf t).length) (hj : j < (tipsOf t).length)
    (hm : mrcaInfo t ((tipsOf t).getD i "") ((tipsOf t).getD j "") = some (r, d)) :
    m i j = if r then 0
      else d / Real.sqrt
        (tipDepth t ((tipsOf t).getD i "") * tipDepth t ((tipsOf t).getD j "")) := by
  rw [corrLoop_ok_eq t (tipsOf t) _ _ m hok]
  rcases Nat.lt_or_ge i j with hlt | hge
  · rw [pairFold_hit _ i j i j hij (Or.inl ⟨rfl, rfl⟩) _ _
      (mem_pairsUpTo.mpr ⟨le_of_lt hlt, hj⟩) (nodup_pairsUpTo _)
      (fun p hp => (mem_pairsUpTo.mp hp).1)]
    unfold corrVal
    rw [hm]
    cases r <;> simp
  · have hlt : j < i := lt_of_le_of_ne hge (Ne.symm hij)
    rw [pairFold_hit _ i j j i (Ne.symm hij) (Or.inr ⟨rfl, rfl⟩) _ _
      (mem_pairsUpTo.mpr ⟨le_of_lt hlt, hi⟩) (nodup_pairsUpTo _)
      (fun p hp => (mem_pairsUpTo.mp hp).1)]
    unfold corrVal
    rw [mrcaInfo_comm, hm]
    cases r <;> simp [mul_comm]

/-- Witness for C2 on the concrete tree `T4`: tips sorted as
`[A, B, C, D]`, the MRCA of `A` and `B` is the non-root inner node at depth
3, both tips have depth 5, and the constructed entry is the claimed ratio. -/
theorem c2_bm_corr_entry_witness :
    mrcaInfo T4 "A" "B" = some (false, 0 + 3) ∧
    tipsOf T4 = ["A", "B", "C", "D"] ∧
    bmCorrOf T4 0 1 = (0 + 3) / Real.sqrt (tipDepth T4 "A" * tipDepth T4 "B") := by
  refine ⟨rfl, rfl, ?_⟩
  have h := c2_bm_corr_entry T4 (bmCorrOf T4) 0 1 false (0 + 3) rfl
    (by decide) (by decide) (by decide) rfl
  simpa using h

/-- C3: for every tree with uniquely-labeled leaves and non-negative branch
lengths on which construction succeeds, `bm_corr` is symmetric, has unit
diagonal, and every off-diagonal entry lies in `[0, 1]`.  Confirmed as
stated. -/
theorem c3_bm_corr_invariants (t : PTree) (m : ℕ → ℕ → ℝ)
    (hok : buildBmCorr t = .ok m) (hnn : nonnegLens t) (hnd : (leafLabels t).Nodup) :
    (∀ i j, m i j = m j i) ∧
    (∀ i, i < (tipsOf t).length → m i i = 1) ∧
    (∀ i j, i < (tipsOf t).length → j < (tipsOf t).length → i ≠ j →
      0 ≤ m i j ∧ m i j ≤ 1) := by
  have hmr := corrLoop_ok_mrca t (tipsOf t) _ _ m hok
  have heq := corrLoop_ok_eq t (tipsOf t) _ _ m hok
  subst heq
  have hbound : ∀ x y, x < y → y < (tipsOf t).length →
      0 ≤ corrVal t (tipsOf t) x y ∧ corrVal t (tipsOf t) x y ≤ 1 := by
    intro x y hxy hy
    have hp : (x, y) ∈ pairsUpTo (tipsOf t).length :=
      mem_pairsUpTo.mpr ⟨le_of_lt hxy, hy⟩
    obtain ⟨hne, hsome⟩ := hmr (x, y) hp (Nat.ne_of_lt hxy)
    rcases hmi : mrcaInfo t ((tipsOf t).getD x "") ((tipsOf t).getD y "") with _ | ⟨r, d⟩
    · exact absurd hmi hsome
    · obtain ⟨h0, h1, h2⟩ := mrcaInfo_bounds hnn hnd hmi
      unfold corrVal
      rw [hmi]
      cases r
      · simpa using corr_ratio_bounds h0 h1 h2
      · simp
  refine ⟨?_, ?_, ?_⟩
  · intro i j
    refine pairFold_symm _ i j _ _ ?_
    intro x y
    by_cases hxy : x = y
    · rw [hxy]
    · simp only [eye]
      rw [if_neg (by tauto), if_neg (by tauto)]
  · intro i hi
    rw [pairFold_diag]
    simp [eye, hi]
  · intro i j hi hj hij
    rcases Nat.lt_or_ge i j with hlt | hge
    · rw [pairFold_hit _ i j i j hij (Or.inl ⟨rfl, rfl⟩) _ _
        (mem_pairsUpTo.mpr ⟨le_of_lt hlt, hj⟩) (nodup_pairsUpTo _)
        (fun p hp => (mem_pairsUpTo.mp hp).1)]
      exact hbound i j hlt hj
    · have hlt : j < i := lt_of_le_of_ne hge (Ne.symm hij)
      rw [pairFold_hit _ i j j i (Ne.symm hij) (Or.inr ⟨rfl, rfl⟩) _ _
        (mem_pairsUpTo.mpr ⟨le_of_lt hlt, hi⟩) (nodup_pairsUpTo _)
        (fun p hp => (mem_pairsUpTo.mp hp).1)]
      exact hbound j i hlt hi

/-- Witness for C3 on the concrete tree `T4`: its branch lengths are
nonnegative, its leaf labels are distinct, and the constructed matrix is
symmetric at `(2, 3)`, has a unit diagonal entry at `(1, 1)`, and the
off-diagonal entry `(2, 3)` lies in `[0, 1]`. -/
theorem c3_bm_corr_invariants_witness :
    nonnegLens T4 ∧ (leafLabels T4).Nodup ∧
    bmCorrOf T4 2 3 = bmCorrOf T4 3 2 ∧ bmCorrOf T4 1 1 = 1 ∧
    0 ≤ bmCorrOf T4 2 3 ∧ bmCorrOf T4 2 3 ≤ 1 := by
  have hnn : nonnegLens T4 := by norm_num [T4, nonnegLens, nonnegLensChildren]
  have hnd : (leafLabels T4).Nodup := by decide
  obtain ⟨hsym, hdiag, hbd⟩ := c3_bm_corr_invariants T4 (bmCorrOf T4) rfl hnn hnd
  obtain ⟨hb1, hb2⟩ := hbd 2 3 (by decide) (by decide) (by decide)
  exact ⟨hnn, hnd, hsym 2 3, hdiag 1 (by decide), hb1, hb2⟩

theorem getD_take_eq {ls : List ℕ} {B i : ℕ} (h : i < B) :
    (ls.take B).getD i 0 = ls.getD i 0 := by
  simp [List.getD_eq_getElem?_getD, List.getElem?_take, h]

/-- C4: when a tree is configured and only `labels` is given, with every
label a valid index into `bm_corr` (and at least `B` labels present), the
mask used is 1 on the diagonal and
`mask[i][j] = mask[j][i] = bm_corr[labels[i]][labels[j]]` for every
unordered pair `i < j < B`.  Confirmed as stated. -/
theorem c4_tree_mask (nTips : ℕ) (bm : ℕ → ℕ → ℝ) (B V D : ℕ) (ls : List ℕ)
    (hlen : B ≤ ls.length) (hvals : ∀ i, i < B → ls.getD i 0 < nTips) :
    forwardMask true nTips bm [B, V, D] (some ls) none =
      .ok (fwdMaskOf true nTips bm [B, V, D] (some ls) none) ∧
    (∀ i, i < B → fwdMaskOf true nTips bm [B, V, D] (some ls) none i i = 1) ∧
    (∀ i j, i < j → j < B →
      fwdMaskOf true nTips bm [B, V, D] (some ls) none i j =
        bm (ls.getD i 0) (ls.getD j 0) ∧
      fwdMaskOf true nTips bm [B, V, D] (some ls) none j i =
        bm (ls.getD i 0) (ls.getD j 0)) := by
  have hcond : ¬(2 ≤ ([B, V, D] : List ℕ).headD 0 ∧
      (ls.length < ([B, V, D] : List ℕ).headD 0 ∨
        ((List.range (([B, V, D] : List ℕ).headD 0)).any
          fun i => nTips ≤ ls.getD i 0))) := by
    rintro ⟨h2, hor⟩
    rcases hor with hlt | hany
    · simp only [List.headD_cons] at hlt
      omega
    · rw [List.any_eq_true] at hany
      obtain ⟨i, hi, hv⟩ := hany
      simp only [List.mem_range, List.headD_cons] at hi hv
      exact absurd (hvals i hi) (by simpa using hv)
  have hok : forwardMask true nTips bm [B, V, D] (some ls) none =
      .ok (pairFold (fun i j => bm (ls.getD i 0) (ls.getD j 0))
        (pairsUpTo B) (eye B)) := by
    unfold forwardMask
    rw [if_neg (by simp)]
    simp only [if_true]
    rw [if_neg hcond]
    rfl
  have hmof : fwdMaskOf true nTips bm [B, V, D] (some ls) none =
      pairFold (fun i j => bm (ls.getD i 0) (ls.getD j 0)) (pairsUpTo B) (eye B) := by
    unfold fwdMaskOf
    rw [hok]
    rfl
  refine ⟨by rw [hok, hmof], ?_, ?_⟩
  · intro i hi
    rw [hmof, pairFold_diag]
    simp [eye, hi]
  · intro i j hij hj
    rw [hmof]
    constructor
    · rw [pairFold_hit _ i j i j (Nat.ne_of_lt hij) (Or.inl ⟨rfl, rfl⟩) _ _
        (mem_pairsUpTo.mpr ⟨le_of_lt hij, hj⟩) (nodup_pairsUpTo _)
        (fun p hp => (mem_pairsUpTo.mp hp).1)]
    · rw [pairFold_hit _ j i i j (Nat.ne_of_lt hij) (Or.inr ⟨rfl, rfl⟩) _ _
        (mem_pairsUpTo.mpr ⟨le_of_lt hij, hj⟩) (nodup_pairsUpTo _)
        (fun p hp => (mem_pairsUpTo.mp hp).1)]

/-- Witness for C4: batch of 2 with labels `[0, 3]` against the matrix of
the concrete tree `T4` (4 tips). -/
theorem c4_tree_mask_witness :
    forwardMask true 4 (bmCorrOf T4) [2, 2, 1] (some [0, 3]) none =
      .ok (fwdMaskOf true 4 (bmCorrOf T4) [2, 2, 1] (some [0, 3]) none) ∧
    fwdMaskOf true 4 (bmCorrOf T4) [2, 2, 1] (some [0, 3]) none 0 0 = 1 ∧
    fwdMaskOf true 4 (bmCorrOf T4) [2, 2, 1] (some [0, 3]) none 0 1 =
      bmCorrOf T4 0 3 ∧
    fwdMaskOf true 4 (bmCorrOf T4) [2, 2, 1] (some [0, 3]) none 1 0 =
      bmCorrOf T4 0 3 := by
  obtain ⟨h1, h2, h3⟩ := c4_tree_mask 4 (bmCorrOf T4) 2 2 1 [0, 3]
    (by decide) (by decide)
  obtain ⟨h4, h5⟩ := h3 0 1 (by decide) (by decide)
  exact ⟨h1, h2 0 (by decide), h4, h5⟩

/-- C9: when a tree is configured and only `labels` is given, no
length-validation is performed on `labels`: a label list longer than the
batch size `B` never produces the length-mismatch error, the extra labels
beyond index `B - 1` are silently ignored (the call behaves exactly as with
the truncated list), and the length-mismatch check fires only in the
no-tree labels branch.  Confirmed as stated. -/
theorem c9_tree_branch_ignores_extra_labels (nTips : ℕ) (bm : ℕ → ℕ → ℝ)
    (B V D : ℕ) (ls : List ℕ) (hlen : B < ls.length) :
    forwardMask true nTips bm [B, V, D] (some ls) none ≠
      .error .labelLengthMismatch ∧
    forwardMask true nTips bm [B, V, D] (some ls) none =
      forwardMask true nTips bm [B, V, D] (some (ls.take B)) none ∧
    forwardMask false nTips bm [B, V, D] (some ls) none =
      .error .labelLengthMismatch := by
  have htk : (ls.take B).length = B := by
    rw [List.length_take]
    omega
  refine ⟨?_, ?_, ?_⟩
  · unfold forwardMask
    rw [if_neg (by simp)]
    simp only [if_true]
    by_cases hcond : (2 ≤ ([B, V, D] : List ℕ).headD 0 ∧
        (ls.length < ([B, V, D] : List ℕ).headD 0 ∨
          ((List.range (([B, V, D] : List ℕ).headD 0)).any
            fun i => nTips ≤ ls.getD i 0)))
    · rw [if_pos hcond]
      intro h
      cases Except.error.inj h
    · rw [if_neg hcond]
      intro h
      cases h
  · unfold forwardMask
    rw [if_neg (by simp), if_neg (by simp)]
    simp only [if_true, List.headD_cons]
    have hc : (((List.range B).any fun i => nTips ≤ ls.getD i 0) = true) ↔
        (((List.range B).any fun i => nTips ≤ (ls.take B).getD i 0) = true) := by
      simp only [List.any_eq_true, List.mem_range, decide_eq_true_eq]
      constructor
      · rintro ⟨i, hi, hv⟩
        exact ⟨i, hi, by rw [getD_take_eq hi]; exact hv⟩
      · rintro ⟨i, hi, hv⟩
        exact ⟨i, hi, by rw [getD_take_eq hi] at hv; exact hv⟩
    have hCiff : (2 ≤ B ∧ (ls.length < B ∨
          ((List.range B).any fun i => nTips ≤ ls.getD i 0))) ↔
        (2 ≤ B ∧ ((ls.take B).length < B ∨
          ((List.range B).any fun i => nTips ≤ (ls.take B).getD i 0))) := by
      constructor
      · rintro ⟨h2, hor⟩
        refine ⟨h2, Or.inr ?_⟩
        rcases hor with h | h
        · omega
        · exact hc.mp h
      · rintro ⟨h2, hor⟩
        refine ⟨h2, Or.inr ?_⟩
        rcases hor with h | h
        · omega
        · exact hc.mpr h
    by_cases hC : (2 ≤ B ∧ (ls.length < B ∨
        ((List.range B).any fun i => nTips ≤ ls.getD i 0)))
    · rw [if_pos hC, if_pos (hCiff.mp hC)]
    · rw [if_neg hC, if_neg (fun h => hC (hCiff.mpr h))]
      rw [pairFold_congr (fun i j => bm (ls.getD i 0) (ls.getD j 0))
        (fun i j => bm ((ls.take B).getD i 0) ((ls.take B).getD j 0))]
      intro p hp _
      obtain ⟨hp1, hp2⟩ := mem_pairsUpTo.mp hp
      rw [getD_take_eq (by omega), getD_take_eq hp2]
  · unfold forwardMask
    rw [if_neg (by simp)]
    simp only [Bool.false_eq_true, if_false, List.headD_cons]
    rw [if_pos (by omega)]

/-- Witness for C9: batch size 2 with three labels. -/
theorem c9_tree_branch_ignores_extra_labels_witness :
    forwardMask true 4 (bmCorrOf T4) [2, 2, 1] (some [0, 3, 1]) none ≠
      .error .labelLengthMismatch ∧
    forwardMask true 4 (bmCorrOf T4) [2, 2, 1] (some [0, 3, 1]) none =
      forwardMask true 4 (bmCorrOf T4) [2, 2, 1] (some ([0, 3, 1].take 2)) none ∧
    forwardMask false 4 (bmCorrOf T4) [2, 2, 1] (some [0, 3, 1]) none =
      .error .labelLengthMismatch :=
  c9_tree_branch_ignores_extra_labels 4 (bmCorrOf T4) 2 2 1 [0, 3, 1] (by decide)

theorem forwardMask_rank_error (tree : Bool) (nTips : ℕ) (bm : ℕ → ℕ → ℝ)
    (featShape : List ℕ) (labels : Option (List ℕ)) (mask : Option (ℕ → ℕ → ℝ))
    (h : featShape.length < 3) :
    forwardMask tree nTips bm featShape labels mask = .error .shapeRank := by
  unfold forwardMask
  rw [if_pos h]

theorem forwardMask_conflict_error (tree : Bool) (nTips : ℕ) (bm : ℕ → ℕ → ℝ)
    (featShape : List ℕ) (ls : List ℕ) (mk : ℕ → ℕ → ℝ)
    (h : 3 ≤ featShape.length) :
    forwardMask tree nTips bm featShape (some ls) (some mk) =
      .error .argumentConflict := by
  unfold forwardMask
  rw [if_neg (by omega)]

/-- C10: the feature-rank check precedes the argument-conflict check: with
both `labels` and `mask` non-null, a features tensor of rank below 3 raises
the rank error, and the conflict error is raised exactly when the rank is at
least 3.  Confirmed as stated. -/
theorem c10_rank_check_precedes_conflict (tree : Bool) (nTips : ℕ)
    (bm : ℕ → ℕ → ℝ) (featShape : List ℕ) (ls : List ℕ) (mk : ℕ → ℕ → ℝ) :
    (featShape.length < 3 →
      forwardMask tree nTips bm featShape (some ls) (some mk) =
        .error .shapeRank) ∧
    (3 ≤ featShape.length →
      forwardMask tree nTips bm featShape (some ls) (some mk) =
        .error .argumentConflict) := by
  exact ⟨forwardMask_rank_error tree nTips bm featShape (some ls) (some mk),
    forwardMask_conflict_error tree nTips bm featShape ls mk⟩

/-- Witness for C10 at ranks 2 and 3. -/
theorem c10_rank_check_precedes_conflict_witness :
    forwardMask false 4 (bmCorrOf T4) [2, 2] (some [0, 1]) (some (eye 2)) =
      .error .shapeRank ∧
    forwardMask false 4 (bmCorrOf T4) [2, 2, 1] (some [0, 1]) (some (eye 2)) =
      .error .argumentConflict :=
  ⟨(c10_rank_check_precedes_conflict false 4 (bmCorrOf T4) [2, 2] [0, 1]
      (eye 2)).1 (by decide),
   (c10_rank_check_precedes_conflict false 4 (bmCorrOf T4) [2, 2, 1] [0, 1]
      (eye 2)).2 (by decide)⟩

/-- C7 counterexample: the claim says every forward call with both `labels`
and `mask` non-null fails with the argument-conflict error; on a rank-2
features tensor the call fails with the rank error instead. -/
theorem c7_both_args_rank2_not_conflict :
    supConForward false 0 (fun _ _ => 0) 1 1 "all" [2, 2] exFeat
      (some [0, 1]) (some (eye 2)) ≠ .error .argumentConflict := by
  intro h
  rw [show supConForward false 0 (fun _ _ => 0) 1 1 "all" [2, 2] exFeat
      (some [0, 1]) (some (eye 2)) = .error .shapeRank from rfl] at h
  cases Except.error.inj h

/-- C7 amended: a forward call with both `labels` and `mask` non-null fails
with the argument-conflict error, for any non-null combination of the two,
provided the features tensor has at least 3 axes (a lower rank raises the
rank error first). -/
theorem c7_conflict_error_with_rank3 (tree : Bool) (nTips : ℕ) (bm : ℕ → ℕ → ℝ)
    (T Tb : ℝ) (mode : String) (featShape : List ℕ) (feats : ℕ → ℕ → ℕ → ℝ)
    (ls : List ℕ) (mk : ℕ → ℕ → ℝ) (hr : 3 ≤ featShape.length) :
    supConForward tree nTips bm T Tb mode featShape feats (some ls) (some mk) =
      .error .argumentConflict := by
  unfold supConForward
  rw [forwardMask_conflict_error tree nTips bm featShape ls mk hr]

/-- Witness for the amended C7: rank-3 features with both arguments given. -/
theorem c7_conflict_error_with_rank3_witness :
    supConForward false 4 (bmCorrOf T4) 1 1 "all" [2, 2, 1] exFeat
      (some [0, 1]) (some (eye 2)) = .error .argumentConflict :=
  c7_conflict_error_with_rank3 false 4 (bmCorrOf T4) 1 1 "all" [2, 2, 1] exFeat
    [0, 1] (eye 2) (by decide)

/-- C6: claim — a forward call either raises or returns a well-defined
scalar, never garbage such as NaN.  The code violates this: a perfectly
valid single-view call (`features` of shape `[2, 1, 5]`, no labels, no mask)
passes every check and returns a value, but the positive mask of every
anchor row is identically zero (the identity mask with self-contrast
removed), so `mean_log_prob_pos = 0 / 0`, which is NaN in the floating-point
semantics of the source and is returned as the loss.  The theorem evaluates
the embedded code on that input: the call succeeds, and both anchor rows'
`mask.sum(1)` denominators are exactly 0. -/
theorem c6_single_view_zero_mask_sums :
    forwardMask false 0 (fun _ _ => 0) [2, 1, 5] none none = .ok (eye 2) ∧
    supConForward false 0 (fun _ _ => 0) 1 1 "all" [2, 1, 5] exFeat none none =
      .ok (supConLossVal 1 1 2 1 5 1 (contrastFeat 2 exFeat)
        (contrastFeat 2 exFeat) (eye 2)) ∧
    maskRowSum 2 (2 * 1) (eye 2) 0 = 0 ∧
    maskRowSum 2 (2 * 1) (eye 2) 1 = 0 := by
  refine ⟨rfl, rfl, ?_, ?_⟩ <;>
    simp [maskRowSum, posMask, logitsMask, eye, Finset.sum_range_succ]

/-- C8: with `smoothing = 0` and `classes = C ≥ 2`, the label-smoothing loss
is exactly the standard cross-entropy loss (mean of the negative log-softmax
probability of the true class).  Confirmed as stated. -/
theorem c8_smoothing_zero_cross_entropy (B C : ℕ) (pred : ℕ → ℕ → ℝ)
    (target : List ℕ) (hC : 2 ≤ C) (hlen : target.length = B)
    (htv : ∀ b, b < B → target.getD b 0 < C) :
    labelSmoothingForward C 0 B C pred target =
      .ok (crossEntropyLoss B C pred target) := by
  unfold labelSmoothingForward
  rw [if_neg (by omega)]
  unfold crossEntropyLoss
  congr 1
  congr 1
  apply Finset.sum_congr rfl
  intro b hb
  rw [Finset.mem_range] at hb
  have ht := htv b hb
  have hsum : ∀ c ∈ Finset.range C,
      -(trueDist C 0 target b c * logSoftmax C pred b c) =
      if c = target.getD b 0 then -(logSoftmax C pred b c) else 0 := by
    intro c _
    unfold trueDist
    by_cases hc : c = target.getD b 0
    · rw [if_pos hc, if_pos hc]
      ring
    · rw [if_neg hc, if_neg hc]
      simp
  rw [Finset.sum_congr rfl hsum, Finset.sum_ite_eq' (Finset.range C)
    (target.getD b 0) (fun c => -(logSoftmax C pred b c)),
    if_pos (Finset.mem_range.mpr ht)]

/-- Witness for C8 on the spec's own example: `classes = 3`,
`pred = [[2, 0, 0]]`, `target = [0]`. -/
theorem c8_smoothing_zero_cross_entropy_witness :
    labelSmoothingForward 3 0 1 3 exPred [0] =
      .ok (crossEntropyLoss 1 3 exPred [0]) :=
  c8_smoothing_zero_cross_entropy 1 3 exPred [0] (by decide) (by decide)
    (fun b hb => by
      have hb0 : b = 0 := by omega
      subst hb0
      decide)

theorem sum_mul_logitsMask (n a : ℕ) (ha : a < n) (g : ℕ → ℝ) :
    ∑ x ∈ Finset.range n, g x * logitsMask a x =
      ∑ x ∈ (Finset.range n).erase a, g x := by
  rw [← Finset.sum_erase_add (Finset.range n) _ (Finset.mem_range.mpr ha)]
  have h1 : g a * logitsMask a a = 0 := by
    simp [logitsMask]
  rw [h1, add_zero]
  apply Finset.sum_congr rfl
  intro x hx
  have hxa : x ≠ a := (Finset.mem_erase.mp hx).1
  simp [logitsMask, hxa]

theorem logProb_eq_specLogProb (T : ℝ) (D n : ℕ) (aF cF : ℕ → ℕ → ℝ) (a c : ℕ)
    (ha : a < n) (hn : 2 ≤ n) :
    logProb T D n aF cF a c = specLogProb T D n aF cF a c := by
  have hS : (0 : ℝ) <
      ∑ x ∈ (Finset.range n).erase a, Real.exp (logitsRaw T D aF cF a x) := by
    apply Finset.sum_pos (fun x _ => Real.exp_pos _)
    rw [← Finset.card_pos, Finset.card_erase_of_mem (Finset.mem_range.mpr ha),
      Finset.card_range]
    omega
  have hsum : expLogitSum T D n aF cF a =
      (∑ x ∈ (Finset.range n).erase a, Real.exp (logitsRaw T D aF cF a x)) /
        Real.exp (rowMax n (logitsRaw T D aF cF a)) := by
    unfold expLogitSum
    have h1 : ∀ x ∈ Finset.range n,
        Real.exp (logitsSt T D n aF cF a x) * logitsMask a x =
        (Real.exp (logitsRaw T D aF cF a x) /
          Real.exp (rowMax n (logitsRaw T D aF cF a))) * logitsMask a x := by
      intro x _
      rw [logitsSt, Real.exp_sub]
    rw [Finset.sum_congr rfl h1]
    rw [sum_mul_logitsMask n a ha
      (fun x => Real.exp (logitsRaw T D aF cF a x) /
        Real.exp (rowMax n (logitsRaw T D aF cF a)))]
    rw [← Finset.sum_div]
  unfold logProb specLogProb
  rw [hsum, Real.log_div (ne_of_gt hS) (Real.exp_ne_zero _), Real.log_exp,
    logitsSt]
  ring

theorem supConLossVal_eq_spec (T Tb : ℝ) (B V D A : ℕ) (aF cF : ℕ → ℕ → ℝ)
    (mask : ℕ → ℕ → ℝ) (hA : B * A ≤ B * V) (hBV : 2 ≤ B * V) :
    supConLossVal T Tb B V D A aF cF mask = specSupConLoss T Tb B V D A aF cF mask := by
  unfold supConLossVal specSupConLoss
  have h1 : ∀ a ∈ Finset.range (B * A),
      -(T / Tb) * meanLogProbPos T D B (B * V) aF cF mask a =
      -(T / Tb) *
        ((∑ c ∈ Finset.range (B * V),
          posMask B mask a c * specLogProb T D (B * V) aF cF a c) /
          (∑ c ∈ Finset.range (B * V), posMask B mask a c)) := by
    intro a hamem
    have ha : a < B * V := lt_of_lt_of_le (Finset.mem_range.mp hamem) hA
    unfold meanLogProbPos maskRowSum
    congr 2
    apply Finset.sum_congr rfl
    intro c _
    rw [logProb_eq_specLogProb T D (B * V) aF cF a c ha hBV]
  rw [Finset.sum_congr rfl h1, ← Finset.mul_sum, mul_div_assoc]

/-- C5: for every valid forward call that returns, the returned scalar is
`-(temperature/base_temperature)` times the mean over all anchor rows of
`sum(mask * log_prob) / sum(mask)`, where per anchor row
`log_prob = logit - log(sum of exp(logit) over all non-self columns)` and
the logits are the anchor·contrast dot products divided by the temperature
(the row-max subtraction performed by the code for numerical stability
cancels exactly).  Confirmed, under the validity condition `2 ≤ B·V` (with
an empty non-self contrast set the real `log` of an empty sum has no
floating-point counterpart). -/
theorem c5_forward_loss_formula (tree : Bool) (nTips : ℕ) (bm : ℕ → ℕ → ℝ)
    (T Tb : ℝ) (mode : String) (B V : ℕ) (rest : List ℕ)
    (feats : ℕ → ℕ → ℕ → ℝ) (ls : Option (List ℕ)) (mk : Option (ℕ → ℕ → ℝ))
    (L : ℝ)
    (hok : supConForward tree nTips bm T Tb mode (B :: V :: rest) feats ls mk =
      .ok L)
    (hBV : 2 ≤ B * V) :
    forwardMask tree nTips bm (B :: V :: rest) ls mk =
      .ok (fwdMaskOf tree nTips bm (B :: V :: rest) ls mk) ∧
    L = specSupConLoss T Tb B V rest.prod (anchorCountOf mode V)
      (anchorFeatOf mode B feats) (contrastFeat B feats)
      (fwdMaskOf tree nTips bm (B :: V :: rest) ls mk) := by
  unfold supConForward at hok
  rcases hfm : forwardMask tree nTips bm (B :: V :: rest) ls mk with e | m
  · rw [hfm] at hok
    cases hok
  · have hmof : fwdMaskOf tree nTips bm (B :: V :: rest) ls mk = m := by
      unfold fwdMaskOf
      rw [hfm]
      rfl
    rw [hfm] at hok
    simp only [List.headD_cons, List.getD_cons_succ, List.getD_cons_zero,
      List.drop_succ_cons, List.drop_zero] at hok
    have hV : 1 ≤ V := by
      rcases Nat.eq_zero_or_pos V with h | h
      · subst h
        simp at hBV
      · exact h
    refine ⟨by rw [hmof], ?_⟩
    rw [hmof]
    by_cases hm1 : mode = "one"
    · rw [if_pos hm1] at hok
      have hL := (Except.ok.inj hok).symm
      rw [hL, anchorCountOf, anchorFeatOf, if_pos hm1, if_pos hm1]
      exact supConLossVal_eq_spec T Tb B V rest.prod 1
        (fun a d => feats a 0 d) (contrastFeat B feats) m
        (Nat.mul_le_mul_left B hV) hBV
    · rw [if_neg hm1] at hok
      by_cases hm2 : mode = "all"
      · rw [if_pos hm2] at hok
        have hL := (Except.ok.inj hok).symm
        rw [hL, anchorCountOf, anchorFeatOf, if_neg hm1, if_neg hm1]
        exact supConLossVal_eq_spec T Tb B V rest.prod V
          (contrastFeat B feats) (contrastFeat B feats) m (le_refl _) hBV
      · rw [if_neg hm2] at hok
        cases hok

/-- Witness for C5: the SimCLR-style call `B = 1`, `V = 2`, `D = 1`, no
labels, no mask, mode `all`. -/
theorem c5_forward_loss_formula_witness :
    supConForward false 0 (fun _ _ => 0) 1 1 "all" [1, 2, 1] exFeat none none =
      .ok exLoss ∧
    forwardMask false 0 (fun _ _ => 0) [1, 2, 1] none none =
      .ok (fwdMaskOf false 0 (fun _ _ => 0) [1, 2, 1] none none) ∧
    exLoss = specSupConLoss 1 1 1 2 ([1] : List ℕ).prod (anchorCountOf "all" 2)
      (anchorFeatOf "all" 1 exFeat) (contrastFeat 1 exFeat)
      (fwdMaskOf false 0 (fun _ _ => 0) [1, 2, 1] none none) := by
  have h := c5_forward_loss_formula false 0 (fun _ _ => 0) 1 1 "all" 1 2 [1]
    exFeat none none exLoss rfl (by norm_num)
  exact ⟨rfl, h.1, h.2⟩
